import Mathlib

/-!
Verification of the GOST R 34.11-94 hash implementation (`main.go`).

Blocks are modelled as `List Nat` of length 32 (one entry per byte); the
external GOST 28147-89 block cipher (an out-of-scope dependency, used only
through its `Encrypt` contract) is modelled as an abstract parameter
`enc : key → plaintext → ciphertext` on byte lists.
-/

namespace Gost341194

/-- `BlockSize` constant from the source (32 bytes). -/
def BlockSize : Nat := 32

/-- The constant `c2` from the source: 32 zero bytes. -/
def c2 : List Nat :=
  [0x00, 0x00, 0x00, 0x00, 0x00, 0x00, 0x00, 0x00,
   0x00, 0x00, 0x00, 0x00, 0x00, 0x00, 0x00, 0x00,
   0x00, 0x00, 0x00, 0x00, 0x00, 0x00, 0x00, 0x00,
   0x00, 0x00, 0x00, 0x00, 0x00, 0x00, 0x00, 0x00]

/-- The constant `c3` from the source. -/
def c3 : List Nat :=
  [0xff, 0x00, 0xff, 0xff, 0x00, 0x00, 0x00, 0xff,
   0xff, 0x00, 0x00, 0xff, 0x00, 0xff, 0xff, 0x00,
   0x00, 0xff, 0x00, 0xff, 0x00, 0xff, 0x00, 0xff,
   0xff, 0x00, 0xff, 0x00, 0xff, 0x00, 0xff, 0x00]

/-- The constant `c4` from the source: 32 zero bytes. -/
def c4 : List Nat :=
  [0x00, 0x00, 0x00, 0x00, 0x00, 0x00, 0x00, 0x00,
   0x00, 0x00, 0x00, 0x00, 0x00, 0x00, 0x00, 0x00,
   0x00, 0x00, 0x00, 0x00, 0x00, 0x00, 0x00, 0x00,
   0x00, 0x00, 0x00, 0x00, 0x00, 0x00, 0x00, 0x00]

/-- The constant `big256 = 2^256` from the source. -/
def big256 : Nat := 2 ^ 256

/-- Transform `fA` from the source: the first 8 output bytes are
`in[16+i] ^ in[24+i]`, followed by a copy of `in[0:24]`. -/
def fA (l : List Nat) : List Nat :=
  List.zipWith (fun a b => a ^^^ b) ((l.drop 16).take 8) (l.drop 24) ++ l.take 24

/-- Transform `fP` from the source: the literal byte permutation
`{in[0], in[8], in[16], in[24], in[1], in[9], ...}`. -/
def fP (l : List Nat) : List Nat :=
  [l.getD 0 0, l.getD 8 0, l.getD 16 0, l.getD 24 0, l.getD 1 0, l.getD 9 0, l.getD 17 0,
   l.getD 25 0, l.getD 2 0, l.getD 10 0, l.getD 18 0, l.getD 26 0, l.getD 3 0,
   l.getD 11 0, l.getD 19 0, l.getD 27 0, l.getD 4 0, l.getD 12 0, l.getD 20 0,
   l.getD 28 0, l.getD 5 0, l.getD 13 0, l.getD 21 0, l.getD 29 0, l.getD 6 0,
   l.getD 14 0, l.getD 22 0, l.getD 30 0, l.getD 7 0, l.getD 15 0, l.getD 23 0, l.getD 31 0]

/-- Transform `fChi` from the source:
`out[0] = in[32-2] ^ in[32-4] ^ in[32-6] ^ in[32-8] ^ in[0] ^ in[32-26]`,
`out[1] = in[32-1] ^ in[32-3] ^ in[32-5] ^ in[32-7] ^ in[32-31] ^ in[32-25]`,
and `out[2:32] = in[0:30]`. -/
def fChi (l : List Nat) : List Nat :=
  (l.getD (32-2) 0 ^^^ l.getD (32-4) 0 ^^^ l.getD (32-6) 0 ^^^ l.getD (32-8) 0 ^^^
     l.getD 0 0 ^^^ l.getD (32-26) 0) ::
  (l.getD (32-1) 0 ^^^ l.getD (32-3) 0 ^^^ l.getD (32-5) 0 ^^^ l.getD (32-7) 0 ^^^
     l.getD (32-31) 0 ^^^ l.getD (32-25) 0) ::
  l.take 30

/-- Bytewise XOR of two blocks (`blockXor` in the source). -/
def blockXor (a b : List Nat) : List Nat :=
  List.zipWith (fun x y => x ^^^ y) a b

/-- The value of the source's local `u` just before the second cipher round:
`blockXor(u, fA(u), &c2)` starting from `u = hin`. -/
def u2 (hin : List Nat) : List Nat := blockXor (fA hin) c2

/-- The value of `u` before the third cipher round: `blockXor(u, fA(u), &c3)`. -/
def u3 (hin : List Nat) : List Nat := blockXor (fA (u2 hin)) c3

/-- The value of `u` before the fourth cipher round: `blockXor(u, fA(u), &c4)`. -/
def u4 (hin : List Nat) : List Nat := blockXor (fA (u3 hin)) c4

/-- The value of the source's local `v` before the second round: `v = fA(fA(v))`
starting from `v = m`. -/
def v2 (m : List Nat) : List Nat := fA (fA m)

/-- The value of `v` before the third round. -/
def v3 (m : List Nat) : List Nat := fA (fA (v2 m))

/-- The value of `v` before the fourth round. -/
def v4 (m : List Nat) : List Nat := fA (fA (v3 m))

/-- The 32-byte key handed to `gost28147.NewCipher` in round `j` of `step`:
the source computes `blockXor(k, u, v); k = fP(k); blockReverse(k[:], k[:])`
before each of the four `Encrypt` calls. -/
def kCipher (hin m : List Nat) : Nat → List Nat
  | 1 => (fP (blockXor hin m)).reverse
  | 2 => (fP (blockXor (u2 hin) (v2 m))).reverse
  | 3 => (fP (blockXor (u3 hin) (v3 m))).reverse
  | _ => (fP (blockXor (u4 hin) (v4 m))).reverse

/-- The intermediate block built by the four cipher rounds of `step`.  Round 1
encrypts `{hin[31], ..., hin[24]}` and stores the ciphertext as
`out[31] = s[0], ..., out[24] = s[7]`; rounds 2-4 handle bytes 23..16, 15..8
and 7..0 the same way.  `enc key pt` models `gost28147.NewCipher(key).Encrypt`. -/
def stepS (enc : List Nat → List Nat → List Nat) (hin m : List Nat) : List Nat :=
  let s1 := enc (kCipher hin m 1) ((hin.drop 24).reverse)
  let s2 := enc (kCipher hin m 2) (((hin.drop 16).take 8).reverse)
  let s3 := enc (kCipher hin m 3) (((hin.drop 8).take 8).reverse)
  let s4 := enc (kCipher hin m 4) ((hin.take 8).reverse)
  s4.reverse ++ (s3.reverse ++ (s2.reverse ++ s1.reverse))

/-- `chiN n b` is the source's loop `for i := 0; i < n; i++ { out = fChi(out) }`. -/
def chiN : Nat → List Nat → List Nat
  | 0, b => b
  | n + 1, b => chiN n (fChi b)

/-- The compression step of the source (`func (h *Hash) step`): the four cipher
rounds followed by 12 `fChi` iterations, XOR with `m`, one `fChi`, XOR with
`hin`, and 61 more `fChi` iterations. -/
def step (enc : List Nat → List Nat → List Nat) (hin m : List Nat) : List Nat :=
  let out := stepS enc hin m
  let out := chiN 12 out
  let out := blockXor out m
  let out := fChi out
  let out := blockXor out hin
  chiN 61 out

/-- Big-endian integer value of a byte list, as computed by `big.Int.SetBytes`. -/
def beVal (l : List Nat) : Nat :=
  l.foldl (fun a b => 256 * a + b) 0

/-- `chkAdd` from the source: `i := SetBytes(data) + chk`, then subtract
`big256` once when `i >= big256`. -/
def chkAdd (chk : Nat) (data : List Nat) : Nat :=
  let i := beVal data + chk
  if big256 ≤ i then i - big256 else i

/-- Observable state of the `Hash` struct: `size` (bit counter, a `uint64`),
`hsh` (chaining value), `chk` (checksum `big.Int`), `buf` (pending bytes).
The `sbox` field is modelled by the abstract `enc` parameter of the
operations, and the `tmp` scratch block is a local of the translation. -/
structure HState where
  size : Nat
  hsh : List Nat
  chk : Nat
  buf : List Nat

/-- The state after `Reset` (also the state `New` produces). -/
def initState : HState :=
  { size := 0, hsh := List.replicate 32 0, chk := 0, buf := [] }

/-- One iteration of the loop body in `Write`: absorb the first 32 buffered
bytes (`size += 256`, reverse the block, `chkAdd`, drop it, `step`). -/
def processBlock (enc : List Nat → List Nat → List Nat) (st : HState) : HState :=
  let tmp := (st.buf.take 32).reverse
  { size := (st.size + 32 * 8) % 2 ^ 64
    hsh := step enc st.hsh tmp
    chk := chkAdd st.chk tmp
    buf := st.buf.drop 32 }

/-- The `for len(h.buf) >= BlockSize` loop of `Write`. -/
def writeLoop (enc : List Nat → List Nat → List Nat) (st : HState) : HState :=
  if _h : 32 ≤ st.buf.length then writeLoop enc (processBlock enc st) else st
termination_by st.buf.length
decreasing_by
  simp only [processBlock, List.length_drop]
  omega

/-- `Write` from the source: append `data` to the buffer, then drain complete
32-byte blocks.  (The Go method also returns `(len(data), nil)`; the returned
values carry no state.) -/
def writeH (enc : List Nat → List Nat → List Nat) (st : HState) (data : List Nat) : HState :=
  writeLoop enc { st with buf := st.buf ++ data }

/-- Minimal big-endian byte representation of a natural number, as returned by
`big.Int.Bytes` (empty for zero). -/
def beBytesMin : Nat → List Nat
  | 0 => []
  | n + 1 => beBytesMin ((n + 1) / 256) ++ [(n + 1) % 256]
decreasing_by
  exact Nat.div_lt_self (Nat.succ_pos n) (by omega)

/-- Fixed-width big-endian bytes of a natural number; `beBytes 8` is the
translation of `binary.BigEndian.PutUint64`. -/
def beBytes : Nat → Nat → List Nat
  | 0, _ => []
  | w + 1, n => beBytes w (n / 256) ++ [n % 256]

/-- `Sum` from the source: snapshot `size`, `chk`, `hsh`; absorb the padded
reversed tail when the buffer is non-empty; absorb the length block
(`PutUint64` into the last 8 bytes of a zero block); absorb the checksum block
(`chk.Bytes()` right-aligned in a zero block); reverse and append to `in`. -/
def Sum (enc : List Nat → List Nat → List Nat) (st : HState) (pfx : List Nat) : List Nat :=
  let finals :=
    if st.buf.length = 0 then (st.size, st.chk, st.hsh)
    else
      let block := (st.buf.take 32 ++ List.replicate (32 - st.buf.length) 0).reverse
      ((st.size + st.buf.length * 8) % 2 ^ 64, chkAdd st.chk block, step enc st.hsh block)
  let size := finals.1
  let chk := finals.2.1
  let hsh := finals.2.2
  let lenBlock := List.replicate 24 0 ++ beBytes 8 size
  let hsh := step enc hsh lenBlock
  let chkBytes := beBytesMin chk
  let chkBlock := List.replicate (32 - chkBytes.length) 0 ++ chkBytes
  let hsh := step enc hsh chkBlock
  pfx ++ hsh.reverse

/-- The full observable effect of the `Sum` method: the returned bytes together
with the hasher state it leaves behind.  The Go method assigns none of the
receiver's fields (`size`, `chk`, `hsh` are copied into locals, `block` is
fresh, and Go arrays are value types), so the state component is the input
state unchanged. -/
def SumSt (enc : List Nat → List Nat → List Nat) (st : HState) (pfx : List Nat) :
    List Nat × HState :=
  (Sum enc st pfx, st)

/-- Total number of bytes passed through a sequence of `Write` calls. -/
def totalLen (ws : List (List Nat)) : Nat :=
  (ws.map List.length).sum

/-- State reached from a fresh hasher by the given sequence of `Write` calls. -/
def stateAfter (enc : List Nat → List Nat → List Nat) (ws : List (List Nat)) : HState :=
  ws.foldl (writeH enc) initState

/-- Spec-side constant: the round constant `C₃` transcribed from the byte
pattern given in spec section 4.2. -/
def c3_spec : List Nat :=
  [0xff, 0x00, 0xff, 0xff, 0x00, 0x00, 0x00, 0xff,
   0xff, 0x00, 0x00, 0xff, 0x00, 0xff, 0xff, 0x00,
   0x00, 0xff, 0x00, 0xff, 0x00, 0xff, 0x00, 0xff,
   0xff, 0x00, 0xff, 0x00, 0xff, 0x00, 0xff, 0x00]

/-- Spec-side constants `Cⱼ` of section 4.2: `C₁ = C₂ = C₄ = 0`, `C₃` the fixed
pattern. -/
def C_spec (j : Nat) : List Nat :=
  if j = 3 then c3_spec else List.replicate 32 0

/-- Spec-side key-schedule sequence `Uⱼ` (section 4.2): `U₁ = H`,
`Uⱼ = A(Uⱼ₋₁) ⊕ Cⱼ` for `j ≥ 2`. -/
def U_spec (hin : List Nat) : Nat → List Nat
  | 0 => hin
  | 1 => hin
  | j + 2 => blockXor (fA (U_spec hin (j + 1))) (C_spec (j + 2))

/-- Spec-side key-schedule sequence `Vⱼ` (section 4.2): `V₁ = M`,
`Vⱼ = A(A(Vⱼ₋₁))` for `j ≥ 2`. -/
def V_spec (m : List Nat) : Nat → List Nat
  | 0 => m
  | 1 => m
  | j + 2 => fA (fA (V_spec m (j + 1)))

/-- Spec-side derived key `Kⱼ = P(Uⱼ ⊕ Vⱼ)` (section 4.2). -/
def K_spec (hin m : List Nat) (j : Nat) : List Nat :=
  fP (blockXor (U_spec hin j) (V_spec m j))

/-- Finalization as worded in spec section 4.5 (`Sum(prefix)`): snapshot the
state; when the buffer is non-empty absorb the reversed zero-padded tail,
add its big-endian value to the checksum mod `2^256` and add `8 × |B|` to the
length; absorb the length block (64-bit big-endian length in the last 8 bytes
of a zero block); absorb the 32-byte big-endian checksum block; the digest is
the byte reversal of the resulting chaining value, appended to the prefix. -/
def Sum_spec (enc : List Nat → List Nat → List Nat) (st : HState) (pfx : List Nat) :
    List Nat :=
  let finals :=
    if st.buf = [] then (st.hsh, st.size, st.chk)
    else
      let rev := (st.buf ++ List.replicate (32 - st.buf.length) 0).reverse
      (step enc st.hsh rev, st.size + 8 * st.buf.length, (st.chk + beVal rev) % big256)
  let lb := List.replicate 24 0 ++ beBytes 8 (finals.2.1 % 2 ^ 64)
  let h2 := step enc finals.1 lb
  let sb := beBytes 32 finals.2.2
  let h3 := step enc h2 sb
  pfx ++ h3.reverse

/-- Candidate inverse of `fChi`: the dropped two bytes are recovered from the
mixed bytes `out[0]`, `out[1]` by XOR cancellation. -/
def fChiInv (l : List Nat) : List Nat :=
  l.drop 2 ++
  [l.getD 0 0 ^^^ l.getD 30 0 ^^^ l.getD 28 0 ^^^ l.getD 26 0 ^^^ l.getD 2 0 ^^^ l.getD 8 0,
   l.getD 1 0 ^^^ l.getD 31 0 ^^^ l.getD 29 0 ^^^ l.getD 27 0 ^^^ l.getD 3 0 ^^^ l.getD 9 0]

/-- A concrete stand-in for the block cipher, used to instantiate theorems
with hypotheses at a specific point: it returns eight zero bytes. -/
def enc0 : List Nat → List Nat → List Nat := fun _ _ => List.replicate 8 0

/-- A concrete 32-byte chaining value used by witnesses. -/
def hSample : List Nat := List.range 32

/-- A concrete 32-byte message block used by witnesses. -/
def mSample : List Nat := (List.range 32).map (fun i => 255 - i)

/-- The 2-byte chunk of a block starting at byte offset `k` (a 16-bit word in
the spec's little-endian word numbering, where `ω1 = Y[0..2]`). -/
def twoChunk (Y : List Nat) (k : Nat) : List Nat :=
  [Y.getD k 0, Y.getD (k + 1) 0]

section Helpers

theorem xor_lcomm (a b c : Nat) : a ^^^ (b ^^^ c) = b ^^^ (a ^^^ c) := by
  rw [← Nat.xor_assoc, Nat.xor_comm a b, Nat.xor_assoc]

theorem exists32 (Y : List Nat) (h : Y.length = 32) :
    ∃ y0 y1 y2 y3 y4 y5 y6 y7 y8 y9 y10 y11 y12 y13 y14 y15 y16 y17 y18 y19 y20 y21 y22
      y23 y24 y25 y26 y27 y28 y29 y30 y31 : Nat,
      Y = [y0, y1, y2, y3, y4, y5, y6, y7, y8, y9, y10, y11, y12, y13, y14, y15, y16, y17,
        y18, y19, y20, y21, y22, y23, y24, y25, y26, y27, y28, y29, y30, y31] := by
  match Y, h with
  | [y0, y1, y2, y3, y4, y5, y6, y7, y8, y9, y10, y11, y12, y13, y14, y15, y16, y17,
      y18, y19, y20, y21, y22, y23, y24, y25, y26, y27, y28, y29, y30, y31], _ =>
    exact ⟨y0, y1, y2, y3, y4, y5, y6, y7, y8, y9, y10, y11, y12, y13, y14, y15, y16, y17,
      y18, y19, y20, y21, y22, y23, y24, y25, y26, y27, y28, y29, y30, y31, rfl⟩

end Helpers

/-- C1 counterexample: at the 32-byte block with byte 2 set to 1 and all other
bytes 0, the claimed byte equation
`out[0..2] = Y[0..2] ⊕ Y[2..4] ⊕ Y[4..6] ⊕ Y[6..8] ⊕ Y[24..26] ⊕ Y[30..32]`
(with `out[2..32] = Y[0..30]`) fails for `fChi`: the code taps byte pairs at
offsets 0, 6, 24, 26, 28, 30, not at 0, 2, 4, 6, 24, 30. -/
theorem chi_bytes_counterexample :
    ¬ ((fChi [0, 0, 1, 0, 0, 0, 0, 0, 0, 0, 0, 0, 0, 0, 0, 0,
          0, 0, 0, 0, 0, 0, 0, 0, 0, 0, 0, 0, 0, 0, 0, 0]).take 2 =
        blockXor (twoChunk [0, 0, 1, 0, 0, 0, 0, 0, 0, 0, 0, 0, 0, 0, 0, 0,
          0, 0, 0, 0, 0, 0, 0, 0, 0, 0, 0, 0, 0, 0, 0, 0] 0)
        (blockXor (twoChunk [0, 0, 1, 0, 0, 0, 0, 0, 0, 0, 0, 0, 0, 0, 0, 0,
          0, 0, 0, 0, 0, 0, 0, 0, 0, 0, 0, 0, 0, 0, 0, 0] 2)
        (blockXor (twoChunk [0, 0, 1, 0, 0, 0, 0, 0, 0, 0, 0, 0, 0, 0, 0, 0,
          0, 0, 0, 0, 0, 0, 0, 0, 0, 0, 0, 0, 0, 0, 0, 0] 4)
        (blockXor (twoChunk [0, 0, 1, 0, 0, 0, 0, 0, 0, 0, 0, 0, 0, 0, 0, 0,
          0, 0, 0, 0, 0, 0, 0, 0, 0, 0, 0, 0, 0, 0, 0, 0] 6)
        (blockXor (twoChunk [0, 0, 1, 0, 0, 0, 0, 0, 0, 0, 0, 0, 0, 0, 0, 0,
          0, 0, 0, 0, 0, 0, 0, 0, 0, 0, 0, 0, 0, 0, 0, 0] 24)
        (twoChunk [0, 0, 1, 0, 0, 0, 0, 0, 0, 0, 0, 0, 0, 0, 0, 0,
          0, 0, 0, 0, 0, 0, 0, 0, 0, 0, 0, 0, 0, 0, 0, 0] 30))))) ∧
      (fChi [0, 0, 1, 0, 0, 0, 0, 0, 0, 0, 0, 0, 0, 0, 0, 0,
          0, 0, 0, 0, 0, 0, 0, 0, 0, 0, 0, 0, 0, 0, 0, 0]).drop 2 =
        [0, 0, 1, 0, 0, 0, 0, 0, 0, 0, 0, 0, 0, 0, 0, 0,
          0, 0, 0, 0, 0, 0, 0, 0, 0, 0, 0, 0, 0, 0, 0, 0].take 30) := by
  decide

/-- C1 (amended): for every 32-byte block `Y`, the `fChi` output satisfies
`out[0..2] = Y[0..2] ⊕ Y[6..8] ⊕ Y[24..26] ⊕ Y[26..28] ⊕ Y[28..30] ⊕ Y[30..32]`
(chunkwise XOR of those 2-byte chunks) and `out[2..32] = Y[0..30]`. -/
theorem chi_bytes_amended (Y : List Nat) (h : Y.length = 32) :
    (fChi Y).take 2 =
      blockXor (twoChunk Y 0) (blockXor (twoChunk Y 6) (blockXor (twoChunk Y 24)
        (blockXor (twoChunk Y 26) (blockXor (twoChunk Y 28) (twoChunk Y 30))))) ∧
    (fChi Y).drop 2 = Y.take 30 := by
  obtain ⟨y0, y1, y2, y3, y4, y5, y6, y7, y8, y9, y10, y11, y12, y13, y14, y15, y16, y17,
    y18, y19, y20, y21, y22, y23, y24, y25, y26, y27, y28, y29, y30, y31, rfl⟩ :=
    exists32 Y h
  refine ⟨?_, rfl⟩
  show _ = _
  simp only [fChi, twoChunk, blockXor]
  norm_num [Nat.xor_assoc, Nat.xor_comm, xor_lcomm, Nat.xor_cancel_left]

/-- Witness for `chi_bytes_amended` at the concrete block `hSample`. -/
theorem chi_bytes_amended_witness :
    hSample.length = 32 ∧
    ((fChi hSample).take 2 =
      blockXor (twoChunk hSample 0) (blockXor (twoChunk hSample 6)
        (blockXor (twoChunk hSample 24) (blockXor (twoChunk hSample 26)
          (blockXor (twoChunk hSample 28) (twoChunk hSample 30))))) ∧
    (fChi hSample).drop 2 = hSample.take 30) :=
  ⟨by decide, chi_bytes_amended hSample (by decide)⟩

/-- C10: `fChi` is a bijection on 32-byte blocks: `fChiInv` is a two-sided
inverse, recovering `in[0..30]` from `out[2..32]` and the two remaining input
bytes from the mixed bytes `out[0]`, `out[1]`; both maps preserve the length. -/
theorem chi_bijective (Y : List Nat) (h : Y.length = 32) :
    fChiInv (fChi Y) = Y ∧ fChi (fChiInv Y) = Y ∧
    (fChi Y).length = 32 ∧ (fChiInv Y).length = 32 := by
  obtain ⟨y0, y1, y2, y3, y4, y5, y6, y7, y8, y9, y10, y11, y12, y13, y14, y15, y16, y17,
    y18, y19, y20, y21, y22, y23, y24, y25, y26, y27, y28, y29, y30, y31, rfl⟩ :=
    exists32 Y h
  refine ⟨?_, ?_, rfl, rfl⟩ <;>
  · show _ = _
    simp only [fChi, fChiInv]
    norm_num [Nat.xor_assoc, Nat.xor_comm, xor_lcomm, Nat.xor_cancel_left]

theorem quarter_extract (a b c d : List Nat) (ha : a.length = 8) (hb : b.length = 8)
    (hc : c.length = 8) (hd : d.length = 8) :
    ((a ++ (b ++ (c ++ d))).drop 0).take 8 = a ∧
    ((a ++ (b ++ (c ++ d))).drop 8).take 8 = b ∧
    ((a ++ (b ++ (c ++ d))).drop 16).take 8 = c ∧
    ((a ++ (b ++ (c ++ d))).drop 24).take 8 = d := by
  have drop8 : ∀ (x y : List Nat), x.length = 8 → (x ++ y).drop 8 = y := by
    intro x y hx
    rw [← hx]
    exact List.drop_left x y
  refine ⟨?_, ?_, ?_, ?_⟩
  · rw [List.drop_zero, List.take_append_of_le_length (by omega)]
    exact List.take_of_length_le (by omega)
  · rw [drop8 _ _ ha, List.take_append_of_le_length (by omega)]
    exact List.take_of_length_le (by omega)
  · rw [show (16 : Nat) = 8 + 8 from rfl, ← List.drop_drop, drop8 _ _ ha, drop8 _ _ hb,
      List.take_append_of_le_length (by omega)]
    exact List.take_of_length_le (by omega)
  · rw [show (24 : Nat) = (8 + 8) + 8 from rfl, ← List.drop_drop, ← List.drop_drop,
      drop8 _ _ ha, drop8 _ _ hb, drop8 _ _ hc]
    exact List.take_of_length_le (by omega)

/-- C4: the four cipher keys of `step` follow the spec's key schedule: the key
of round `j` is the byte-reversal of `Kⱼ` where `U₁ = H`, `V₁ = M`,
`Uⱼ = A(Uⱼ₋₁) ⊕ Cⱼ`, `Vⱼ = A(A(Vⱼ₋₁))`, `Kⱼ = P(Uⱼ ⊕ Vⱼ)`, the code's `u`/`v`
chains match the spec sequences, and the constants satisfy `C₂ = C₄ = 0` and
`C₃` = the section 4.2 byte pattern. -/
theorem key_schedule_spec (hin m : List Nat) (j : Nat) (h1 : 1 ≤ j) (h2 : j ≤ 4) :
    kCipher hin m j = (K_spec hin m j).reverse ∧
    u2 hin = U_spec hin 2 ∧ u3 hin = U_spec hin 3 ∧ u4 hin = U_spec hin 4 ∧
    v2 m = V_spec m 2 ∧ v3 m = V_spec m 3 ∧ v4 m = V_spec m 4 ∧
    c2 = List.replicate 32 0 ∧ c4 = List.replicate 32 0 ∧ c3 = c3_spec := by
  refine ⟨?_, rfl, rfl, rfl, rfl, rfl, rfl, rfl, rfl, rfl⟩
  interval_cases j
  · rfl
  · rfl
  · rfl
  · rfl

/-- Witness for `key_schedule_spec` at round 3 on concrete blocks. -/
theorem key_schedule_spec_witness :
    1 ≤ 3 ∧ 3 ≤ 4 ∧
    (kCipher hSample mSample 3 = (K_spec hSample mSample 3).reverse ∧
     u2 hSample = U_spec hSample 2 ∧ u3 hSample = U_spec hSample 3 ∧
     u4 hSample = U_spec hSample 4 ∧
     v2 mSample = V_spec mSample 2 ∧ v3 mSample = V_spec mSample 3 ∧
     v4 mSample = V_spec mSample 4 ∧
     c2 = List.replicate 32 0 ∧ c4 = List.replicate 32 0 ∧ c3 = c3_spec) :=
  ⟨by decide, by decide, key_schedule_spec hSample mSample 3 (by decide) (by decide)⟩

/-- C2: in the intermediate block of `step`, the bytes at quarter position
`S[8(4-j)..8(5-j)]` are the byte-reversal of the round-`j` ciphertext, which
encrypts the byte-reversal of `H[8(4-j)..8(5-j)]` (the `j`-th 64-bit quarter
of `H` counted from the high end) under the byte-reversed derived key `Kⱼ`;
so `h₁ = H[0..8]` is handled by round 4, `h₂` by round 3, `h₃` by round 2 and
`h₄ = H[24..32]` by round 1. -/
theorem step_round_quarters (enc : List Nat → List Nat → List Nat)
    (henc : ∀ k p, (enc k p).length = 8) (hin m : List Nat) (hlen : hin.length = 32)
    (j : Nat) (h1 : 1 ≤ j) (h2 : j ≤ 4) :
    ((stepS enc hin m).drop (8 * (4 - j))).take 8 =
      (enc ((K_spec hin m j).reverse) (((hin.drop (8 * (4 - j))).take 8).reverse)).reverse := by
  have l1 : ((enc (kCipher hin m 1) ((hin.drop 24).reverse)).reverse).length = 8 := by
    rw [List.length_reverse, henc]
  have l2 : ((enc (kCipher hin m 2) (((hin.drop 16).take 8).reverse)).reverse).length = 8 := by
    rw [List.length_reverse, henc]
  have l3 : ((enc (kCipher hin m 3) (((hin.drop 8).take 8).reverse)).reverse).length = 8 := by
    rw [List.length_reverse, henc]
  have l4 : ((enc (kCipher hin m 4) ((hin.take 8).reverse)).reverse).length = 8 := by
    rw [List.length_reverse, henc]
  have hq := quarter_extract _ _ _ _ l4 l3 l2 l1
  interval_cases j
  · have e1 : (hin.drop 24).take 8 = hin.drop 24 :=
      List.take_of_length_le (by rw [List.length_drop, hlen])
    rw [show (8 * (4 - 1) : Nat) = 24 from rfl, e1]
    exact hq.2.2.2
  · exact hq.2.2.1
  · exact hq.2.1
  · exact hq.1

/-- Witness for `step_round_quarters` at round 2 on concrete inputs with the
concrete cipher `enc0`. -/
theorem step_round_quarters_witness :
    hSample.length = 32 ∧ 1 ≤ 2 ∧ 2 ≤ 4 ∧
    ((stepS enc0 hSample mSample).drop (8 * (4 - 2))).take 8 =
      (enc0 ((K_spec hSample mSample 2).reverse)
        (((hSample.drop (8 * (4 - 2))).take 8).reverse)).reverse :=
  ⟨by decide, by decide, by decide,
    step_round_quarters enc0 (fun _ _ => rfl) hSample mSample (by decide) 2
      (by decide) (by decide)⟩

theorem chiN_eq_iterate : ∀ (n : Nat) (b : List Nat), chiN n b = fChi^[n] b := by
  intro n
  induction n with
  | zero => intro b; rfl
  | succ n ih =>
    intro b
    rw [chiN, ih, Function.iterate_succ_apply]

/-- C3: the compression step computes
`H' = ψ⁶¹(ψ(ψ¹²(S) ⊕ M) ⊕ H)` where `S` is the intermediate block of the four
cipher rounds — 12 `fChi` iterations, XOR with `M`, one `fChi`, XOR with `H`,
then 61 more iterations, 74 `fChi` applications in total. -/
theorem step_mixing_formula (enc : List Nat → List Nat → List Nat) (hin m : List Nat) :
    step enc hin m =
      fChi^[61] (blockXor (fChi (blockXor (fChi^[12] (stepS enc hin m)) m)) hin) := by
  simp only [step, chiN_eq_iterate]

theorem chkAdd_spec (chk : Nat) (data : List Nat) (h1 : chk < big256)
    (h2 : beVal data < big256) :
    chkAdd chk data = (chk + beVal data) % big256 ∧ chkAdd chk data < big256 := by
  simp only [chkAdd]
  by_cases h : big256 ≤ beVal data + chk
  · rw [if_pos h]
    constructor
    · rw [Nat.add_comm chk (beVal data)]
      have hlt : beVal data + chk - big256 < big256 := by omega
      rw [Nat.mod_eq_sub_mod h, Nat.mod_eq_of_lt hlt]
    · omega
  · rw [if_neg h]
    constructor
    · rw [Nat.add_comm chk (beVal data), Nat.mod_eq_of_lt (by omega)]
    · omega

/-- C9: for `Σ < 2^256` and a block value `v < 2^256`, `chkAdd` returns exactly
`(Σ + v) mod 2^256` (the conditional subtraction of `big256` performs the
reduction), and the result stays below `2^256`. -/
theorem chkAdd_mod (chk : Nat) (data : List Nat) (h1 : chk < big256)
    (h2 : beVal data < big256) :
    chkAdd chk data = (chk + beVal data) % big256 ∧ chkAdd chk data < big256 :=
  chkAdd_spec chk data h1 h2

/-- Witness for `chkAdd_mod` on concrete values. -/
theorem chkAdd_mod_witness :
    (7 : Nat) < big256 ∧ beVal [1, 2] < big256 ∧
    (chkAdd 7 [1, 2] = (7 + beVal [1, 2]) % big256 ∧ chkAdd 7 [1, 2] < big256) :=
  ⟨by decide, by decide, chkAdd_mod 7 [1, 2] (by decide) (by decide)⟩

theorem writeLoop_stop (enc : List Nat → List Nat → List Nat) (st : HState)
    (h : st.buf.length < 32) : writeLoop enc st = st := by
  rw [writeLoop]
  exact dif_neg (by omega)

theorem writeLoop_go (enc : List Nat → List Nat → List Nat) (st : HState)
    (h : 32 ≤ st.buf.length) :
    writeLoop enc st = writeLoop enc (processBlock enc st) := by
  rw [writeLoop]
  exact dif_pos h

theorem writeLoop_buf_lt (enc : List Nat → List Nat → List Nat) :
    ∀ (n : Nat) (st : HState), st.buf.length ≤ n → (writeLoop enc st).buf.length < 32 := by
  intro n
  induction n with
  | zero =>
    intro st h
    rw [writeLoop_stop enc st (by omega)]
    omega
  | succ n ih =>
    intro st h
    by_cases h32 : 32 ≤ st.buf.length
    · rw [writeLoop_go enc st h32]
      apply ih
      simp only [processBlock, List.length_drop]
      omega
    · rw [writeLoop_stop enc st (by omega)]
      omega

theorem writeH_buf_lt (enc : List Nat → List Nat → List Nat) (st : HState) (d : List Nat) :
    (writeH enc st d).buf.length < 32 :=
  writeLoop_buf_lt enc _ _ le_rfl

theorem processBlock_append (enc : List Nat → List Nat → List Nat) (st : HState)
    (b : List Nat) (h : 32 ≤ st.buf.length) :
    processBlock enc { st with buf := st.buf ++ b } =
      { processBlock enc st with buf := (processBlock enc st).buf ++ b } := by
  have h0 : 32 - st.buf.length = 0 := by omega
  simp only [processBlock, List.take_append_of_le_length h, List.drop_append_eq_append_drop,
    h0, List.drop_zero]

theorem writeLoop_append (enc : List Nat → List Nat → List Nat) :
    ∀ (n : Nat) (st : HState) (b : List Nat), st.buf.length ≤ n →
      writeLoop enc { writeLoop enc st with buf := (writeLoop enc st).buf ++ b } =
        writeLoop enc { st with buf := st.buf ++ b } := by
  intro n
  induction n with
  | zero =>
    intro st b h
    rw [writeLoop_stop enc st (by omega)]
  | succ n ih =>
    intro st b h
    by_cases h32 : 32 ≤ st.buf.length
    · rw [writeLoop_go enc st h32,
        ih (processBlock enc st) b (by simp only [processBlock, List.length_drop]; omega),
        ← processBlock_append enc st b h32,
        ← writeLoop_go enc _ (by simp only [List.length_append]; omega)]
    · rw [writeLoop_stop enc st (by omega)]

theorem writeH_append (enc : List Nat → List Nat → List Nat) (st : HState)
    (a b : List Nat) :
    writeH enc (writeH enc st a) b = writeH enc st (a ++ b) := by
  simp only [writeH]
  rw [writeLoop_append enc ({ st with buf := st.buf ++ a }).buf.length _ b le_rfl,
    List.append_assoc]

theorem foldl_writeH (enc : List Nat → List Nat → List Nat) :
    ∀ (parts : List (List Nat)) (st : HState), st.buf.length < 32 →
      parts.foldl (writeH enc) st = writeH enc st parts.flatten := by
  intro parts
  induction parts with
  | nil =>
    intro st h
    simp only [List.foldl_nil, List.flatten_nil, writeH, List.append_nil]
    exact (writeLoop_stop enc st h).symm
  | cons p ps ih =>
    intro st h
    simp only [List.foldl_cons, List.flatten_cons]
    rw [ih (writeH enc st p) (writeH_buf_lt enc st p), writeH_append]

/-- C6: `Sum` is non-mutating: the state component of the full observable
effect of `Sum` is the input state, a second `Sum` on that state returns the
same bytes, and a `Write` after `Sum` behaves exactly as a `Write` on the
original state. -/
theorem sum_nonmutating (enc : List Nat → List Nat → List Nat) (st : HState)
    (pfx data : List Nat) :
    (SumSt enc st pfx).2 = st ∧
    (SumSt enc (SumSt enc st pfx).2 pfx).1 = (SumSt enc st pfx).1 ∧
    writeH enc (SumSt enc st pfx).2 data = writeH enc st data :=
  ⟨rfl, rfl, rfl⟩

/-- C7: streaming equivalence — writing the pieces of any partition of a
message one by one and then calling `Sum` on a fresh hasher produces the same
digest as writing the whole message at once. -/
theorem streaming_equivalence (enc : List Nat → List Nat → List Nat)
    (parts : List (List Nat)) (pfx : List Nat) :
    Sum enc (stateAfter enc parts) pfx =
      Sum enc (writeH enc initState parts.flatten) pfx := by
  rw [stateAfter, foldl_writeH enc parts initState (by norm_num [initState])]

theorem writeLoop_size (enc : List Nat → List Nat → List Nat) :
    ∀ (n : Nat) (st : HState), st.buf.length ≤ n → st.size < 2 ^ 64 →
      (writeLoop enc st).size = (st.size + 256 * (st.buf.length / 32)) % 2 ^ 64 ∧
      (writeLoop enc st).buf.length = st.buf.length % 32 ∧
      (writeLoop enc st).size < 2 ^ 64 := by
  have hW : (2 : Nat) ^ 64 = 18446744073709551616 := by norm_num
  intro n
  induction n with
  | zero =>
    intro st h hs
    rw [writeLoop_stop enc st (by omega)]
    rw [hW] at hs ⊢
    refine ⟨by omega, by omega, hs⟩
  | succ n ih =>
    intro st h hs
    by_cases h32 : 32 ≤ st.buf.length
    · rw [writeLoop_go enc st h32]
      have hlen : (processBlock enc st).buf.length = st.buf.length - 32 := by
        simp only [processBlock, List.length_drop]
      have hsz : (processBlock enc st).size = (st.size + 256) % 2 ^ 64 := rfl
      have hpos : 0 < (2 : Nat) ^ 64 := by norm_num
      have ihp := ih (processBlock enc st) (by omega) (by rw [hsz]; exact Nat.mod_lt _ hpos)
      refine ⟨?_, ?_, ihp.2.2⟩
      · rw [ihp.1, hsz, hlen, Nat.mod_add_mod]
        have harith : st.size + 256 + 256 * ((st.buf.length - 32) / 32) =
            st.size + 256 * (st.buf.length / 32) := by
          have : 1 + (st.buf.length - 32) / 32 = st.buf.length / 32 := by omega
          calc st.size + 256 + 256 * ((st.buf.length - 32) / 32)
              = st.size + 256 * (1 + (st.buf.length - 32) / 32) := by ring
            _ = st.size + 256 * (st.buf.length / 32) := by rw [this]
        rw [harith]
      · rw [ihp.2.1, hlen]
        omega
    · rw [writeLoop_stop enc st (by omega)]
      rw [hW] at hs ⊢
      refine ⟨by omega, by omega, hs⟩

theorem foldl_write_inv (enc : List Nat → List Nat → List Nat) :
    ∀ (ws : List (List Nat)) (st : HState) (c : Nat), st.size < 2 ^ 64 →
      st.size = (256 * (c / 32)) % 2 ^ 64 → st.buf.length = c % 32 →
      ((ws.foldl (writeH enc) st).size = (256 * ((c + totalLen ws) / 32)) % 2 ^ 64 ∧
       (ws.foldl (writeH enc) st).buf.length = (c + totalLen ws) % 32 ∧
       (ws.foldl (writeH enc) st).size < 2 ^ 64) := by
  intro ws
  induction ws with
  | nil =>
    intro st c h1 h2 h3
    simp only [List.foldl_nil, totalLen, List.map_nil, List.sum_nil, Nat.add_zero]
    exact ⟨h2, h3, h1⟩
  | cons d ws ih =>
    intro st c h1 h2 h3
    simp only [List.foldl_cons]
    have hbuf : ({ st with buf := st.buf ++ d } : HState).buf.length = c % 32 + d.length := by
      simp only [List.length_append, h3]
    have hw := writeLoop_size enc ({ st with buf := st.buf ++ d } : HState).buf.length
      ({ st with buf := st.buf ++ d }) le_rfl h1
    rw [hbuf] at hw
    have hsize : (writeH enc st d).size = (256 * ((c + d.length) / 32)) % 2 ^ 64 := by
      rw [writeH, hw.1]
      show (st.size + 256 * ((c % 32 + d.length) / 32)) % 2 ^ 64 = _
      rw [h2, Nat.mod_add_mod, ← Nat.mul_add]
      have : c / 32 + (c % 32 + d.length) / 32 = (c + d.length) / 32 := by omega
      rw [this]
    have hblen : (writeH enc st d).buf.length = (c + d.length) % 32 := by
      rw [writeH, hw.2.1]
      omega
    have := ih (writeH enc st d) (c + d.length) hw.2.2 hsize hblen
    have htot : c + d.length + totalLen ws = c + totalLen (d :: ws) := by
      simp only [totalLen, List.map_cons, List.sum_cons]
      omega
    rw [htot] at this
    exact this

/-- C8 counterexample: the bit counter is a `uint64` and wraps.  Writing
`32 * 2^56 = 2^61` zero bytes in one call from a fresh hasher fully absorbs
`2^56` blocks, but the counter ends at `(256 * 2^56) mod 2^64 = 0`, not at
`256 * 2^56` as the claim states. -/
theorem write_counter_counterexample :
    (writeH enc0 initState (List.replicate (2 ^ 61) 0)).size ≠ 256 * 2 ^ 56 := by
  have h0 : writeH enc0 initState (List.replicate (2 ^ 61) 0) =
      writeLoop enc0
        { size := 0, hsh := List.replicate 32 0, chk := 0, buf := List.replicate (2 ^ 61) 0 } :=
    rfl
  have hbuf :
      ({ size := 0, hsh := List.replicate 32 0, chk := 0, buf := List.replicate (2 ^ 61) 0 } :
        HState).buf.length = 2 ^ 61 := by
    rw [List.length_replicate]
  have hw := writeLoop_size enc0 (2 ^ 61)
    { size := 0, hsh := List.replicate 32 0, chk := 0, buf := List.replicate (2 ^ 61) 0 }
    (le_of_eq hbuf) (by norm_num)
  rw [h0, hw.1, hbuf]
  norm_num

/-- C8 (amended): after any sequence of `Write` calls on a fresh hasher the
pending buffer has fewer than 32 bytes, and the bit counter equals
`256 × (number of fully absorbed 32-byte blocks)` reduced modulo `2^64` (the
counter is a `uint64`), where the number of fully absorbed blocks is the total
byte count divided by 32. -/
theorem write_invariant_amended (enc : List Nat → List Nat → List Nat)
    (ws : List (List Nat)) :
    (stateAfter enc ws).buf.length < 32 ∧
    (stateAfter enc ws).size = (256 * (totalLen ws / 32)) % 2 ^ 64 := by
  have h := foldl_write_inv enc ws initState 0 (by norm_num [initState])
    (by norm_num [initState]) (by norm_num [initState])
  simp only [Nat.zero_add] at h
  exact ⟨by rw [stateAfter, h.2.1]; omega, h.1⟩

theorem beBytes_zero : ∀ w, beBytes w 0 = List.replicate w 0 := by
  intro w
  induction w with
  | zero => rfl
  | succ w ih =>
    rw [beBytes]
    norm_num [ih, List.replicate_succ']

theorem beBytesMin_zero : beBytesMin 0 = [] := by
  rw [beBytesMin]

theorem beBytesMin_pad : ∀ (w n : Nat), n < 256 ^ w →
    List.replicate (w - (beBytesMin n).length) 0 ++ beBytesMin n = beBytes w n := by
  intro w
  induction w with
  | zero =>
    intro n h
    have hn : n = 0 := by simpa using h
    subst hn
    rw [beBytesMin_zero]
    rfl
  | succ w ih =>
    intro n h
    by_cases h0 : n = 0
    · subst h0
      rw [beBytesMin_zero, List.append_nil, beBytes_zero]
      norm_num
    · obtain ⟨m, rfl⟩ := Nat.exists_eq_succ_of_ne_zero h0
      rw [beBytesMin, beBytes]
      have hdiv : (m + 1) / 256 < 256 ^ w := by
        have hlt : m + 1 < 256 ^ w * 256 := by
          rw [← pow_succ]
          exact h
        exact (Nat.div_lt_iff_lt_mul (by norm_num)).mpr hlt
      rw [← ih ((m + 1) / 256) hdiv, List.length_append, List.length_singleton]
      have hsub : w + 1 - ((beBytesMin ((m + 1) / 256)).length + 1) =
          w - (beBytesMin ((m + 1) / 256)).length := by omega
      rw [hsub, ← List.append_assoc]

theorem beVal_foldl_lt : ∀ (l : List Nat) (a : Nat), (∀ b ∈ l, b < 256) →
    List.foldl (fun x y => 256 * x + y) a l < (a + 1) * 256 ^ l.length := by
  intro l
  induction l with
  | nil =>
    intro a h
    simp
  | cons b t ih =>
    intro a h
    have hb : b < 256 := h b (List.mem_cons_self b t)
    have ht : ∀ x ∈ t, x < 256 := fun x hx => h x (List.mem_cons_of_mem _ hx)
    show List.foldl (fun x y => 256 * x + y) (256 * a + b) t < (a + 1) * 256 ^ (t.length + 1)
    calc List.foldl (fun x y => 256 * x + y) (256 * a + b) t
        < (256 * a + b + 1) * 256 ^ t.length := ih (256 * a + b) ht
      _ ≤ (256 * (a + 1)) * 256 ^ t.length := Nat.mul_le_mul_right _ (by omega)
      _ = (a + 1) * 256 ^ (t.length + 1) := by ring

theorem beVal_bytes_lt (l : List Nat) (h : ∀ b ∈ l, b < 256) :
    beVal l < 256 ^ l.length := by
  have hfold := beVal_foldl_lt l 0 h
  simpa [beVal] using hfold

/-- C5: `Sum` computes exactly the finalization described in spec 4.5: absorb
the reversed zero-padded tail when (and only when) the buffer is non-empty,
updating checksum and bit length accordingly, then absorb the length block and
the 32-byte big-endian checksum block, and return the prefix followed by the
reversed chaining value.  The hypotheses are the hasher-state invariants
(buffer shorter than 32 byte-valued entries, checksum below `2^256`, counter
below `2^64`). -/
theorem sum_finalize_spec (enc : List Nat → List Nat → List Nat) (st : HState)
    (pfx : List Nat) (hb : st.buf.length < 32) (hbytes : ∀ b ∈ st.buf, b < 256)
    (hchk : st.chk < big256) (hsize : st.size < 2 ^ 64) :
    Sum enc st pfx = Sum_spec enc st pfx := by
  have hpow : big256 = 256 ^ 32 := by norm_num [big256]
  by_cases h0 : st.buf = []
  · have hlen0 : st.buf.length = 0 := by rw [h0]; rfl
    simp only [Sum, Sum_spec, if_pos h0, if_pos hlen0]
    rw [Nat.mod_eq_of_lt hsize, beBytesMin_pad 32 st.chk (hpow ▸ hchk)]
  · have hlen0 : ¬ st.buf.length = 0 := fun hc => h0 (List.length_eq_zero.mp hc)
    simp only [Sum, Sum_spec, if_neg h0, if_neg hlen0]
    rw [List.take_of_length_le (le_of_lt hb)]
    have hrevlen : ((st.buf ++ List.replicate (32 - st.buf.length) 0).reverse).length = 32 := by
      rw [List.length_reverse, List.length_append, List.length_replicate]
      omega
    have hrevbytes : ∀ b ∈ (st.buf ++ List.replicate (32 - st.buf.length) 0).reverse,
        b < 256 := by
      intro b hbm
      rw [List.mem_reverse, List.mem_append] at hbm
      rcases hbm with hbm | hbm
      · exact hbytes b hbm
      · rw [List.eq_of_mem_replicate hbm]
        omega
    have hbeval : beVal ((st.buf ++ List.replicate (32 - st.buf.length) 0).reverse) < big256 := by
      have hv := beVal_bytes_lt _ hrevbytes
      rw [hrevlen] at hv
      rw [hpow]
      exact hv
    have hchkeq := chkAdd_spec st.chk _ hchk hbeval
    rw [hchkeq.1, Nat.mul_comm st.buf.length 8,
      beBytesMin_pad 32 _ (hpow ▸ Nat.mod_lt _ (by rw [hpow]; positivity))]

/-- Witness for `sum_finalize_spec` at a concrete state with a one-byte
buffer. -/
theorem sum_finalize_spec_witness :
    (HState.mk 8 hSample 5 [171]).buf.length < 32 ∧
    (∀ b ∈ (HState.mk 8 hSample 5 [171]).buf, b < 256) ∧
    (HState.mk 8 hSample 5 [171]).chk < big256 ∧
    (HState.mk 8 hSample 5 [171]).size < 2 ^ 64 ∧
    Sum enc0 (HState.mk 8 hSample 5 [171]) [1] =
      Sum_spec enc0 (HState.mk 8 hSample 5 [171]) [1] :=
  ⟨by decide, by decide, by decide, by decide,
    sum_finalize_spec enc0 (HState.mk 8 hSample 5 [171]) [1] (by decide) (by decide)
      (by decide) (by decide)⟩

/-- Witness for `chi_bijective` at the concrete block `mSample`. -/
theorem chi_bijective_witness :
    mSample.length = 32 ∧
    (fChiInv (fChi mSample) = mSample ∧ fChi (fChiInv mSample) = mSample ∧
      (fChi mSample).length = 32 ∧ (fChiInv mSample).length = 32) :=
  ⟨by decide, chi_bijective mSample (by decide)⟩

end Gost341194
